import Mathlib

/-!
Shallow embedding of the lexkey Go package (fgrzl/lexkey): order-preserving
byte encodings for typed key parts, composite primary keys, and range-scan
boundaries.  Machine integers are modelled as `Nat`/`Int` with explicit
reduction modulo `2^w`; float64/float32 values are modelled by their IEEE-754
bit patterns (a `Nat` below `2^64` resp. `2^32`); byte strings are
`List Nat` with every element below 256.
-/

/-- Separator byte 0x00 between encoded key parts (source constant `Seperator`). -/
def Seperator : Nat := 0x00

/-- End marker byte 0xFF used for exclusive upper bounds (source constant `EndMarker`). -/
def EndMarker : Nat := 0xFF

/-- Big-endian byte string (most significant byte first) of a natural number,
written to exactly `n` bytes, as `binary.BigEndian.PutUint64` and friends do. -/
def beBytes : Nat → Nat → List Nat
  | 0, _ => []
  | n + 1, x => x / 256 ^ n :: beBytes n (x % 256 ^ n)

/-- Byte-wise lexicographic strict order on byte strings, as Go compares
keys (`bytes.Compare` / `string` `<`): compare position by position, and a
proper prefix sorts before each of its extensions. -/
def lexLt : List Nat → List Nat → Bool
  | _, [] => false
  | [], _ :: _ => true
  | a :: as, b :: bs => if a < b then true else if a = b then lexLt as bs else false

/-- Byte-wise lexicographic order, non-strict variant. -/
def lexLe (a b : List Nat) : Bool := lexLt a b || a == b

theorem lexLt_nil_left (w : List Nat) : lexLt [] w = !w.isEmpty := by
  cases w <;> rfl

theorem lexLt_irrefl (a : List Nat) : lexLt a a = false := by
  induction a with
  | nil => rfl
  | cons x xs ih => simp [lexLt, ih]

theorem lexLt_append_left (p a b : List Nat) :
    lexLt (p ++ a) (p ++ b) = lexLt a b := by
  induction p with
  | nil => rfl
  | cons x xs ih => simp [lexLt, ih]

theorem beq_append_left (p a b : List Nat) : (p ++ a == p ++ b) = (a == b) := by
  rw [Bool.eq_iff_iff]
  simp only [beq_iff_eq]
  exact ⟨fun hc => List.append_cancel_left hc, fun hc => by rw [hc]⟩

theorem lexLe_append_left (p a b : List Nat) :
    lexLe (p ++ a) (p ++ b) = lexLe a b := by
  simp [lexLe, lexLt_append_left, beq_append_left]

theorem beBytes_length (n x : Nat) : (beBytes n x).length = n := by
  induction n generalizing x with
  | zero => rfl
  | succ n ih => simp [beBytes, ih]

theorem mul_add_lt_mul_add_iff {p xh xl yh yl : Nat} (hx : xl < p) (hy : yl < p) :
    p * xh + xl < p * yh + yl ↔ xh < yh ∨ (xh = yh ∧ xl < yl) := by
  constructor
  · intro h
    rcases Nat.lt_trichotomy xh yh with h1 | h1 | h1
    · exact Or.inl h1
    · subst h1
      exact Or.inr ⟨rfl, Nat.lt_of_add_lt_add_left h⟩
    · exfalso
      have h2 : p * yh + yl < p * yh + p := Nat.add_lt_add_left hy _
      have h3 : p * yh + p = p * (yh + 1) := (Nat.mul_succ p yh).symm
      have h4 : p * (yh + 1) ≤ p * xh := Nat.mul_le_mul_left p h1
      have h5 : p * yh + yl < p * xh + xl :=
        Nat.lt_of_lt_of_le (h3 ▸ h2) (Nat.le_trans h4 (Nat.le_add_right _ _))
      exact Nat.lt_asymm h h5
  · intro h
    rcases h with h1 | ⟨h1, h2⟩
    · have h2 : p * xh + xl < p * xh + p := Nat.add_lt_add_left hx _
      have h3 : p * xh + p = p * (xh + 1) := (Nat.mul_succ p xh).symm
      have h4 : p * (xh + 1) ≤ p * yh := Nat.mul_le_mul_left p h1
      exact Nat.lt_of_lt_of_le (h3 ▸ h2) (Nat.le_trans h4 (Nat.le_add_right _ _))
    · subst h1
      exact Nat.add_lt_add_left h2 _

theorem beBytes_lt {n x y : Nat} (hx : x < 256 ^ n) (hy : y < 256 ^ n) :
    lexLt (beBytes n x) (beBytes n y) = true ↔ x < y := by
  induction n generalizing x y with
  | zero =>
    simp only [Nat.pow_zero, Nat.lt_one_iff] at hx hy
    subst hx; subst hy
    simp [beBytes, lexLt]
  | succ n ih =>
    have hxd : x / 256 ^ n < 256 := by
      refine Nat.div_lt_of_lt_mul ?_
      calc x < 256 ^ (n + 1) := hx
        _ = 256 ^ n * 256 := by rw [Nat.pow_succ]
    have hyd : y / 256 ^ n < 256 := by
      refine Nat.div_lt_of_lt_mul ?_
      calc y < 256 ^ (n + 1) := hy
        _ = 256 ^ n * 256 := by rw [Nat.pow_succ]
    have hxm : x % 256 ^ n < 256 ^ n := Nat.mod_lt _ (Nat.pos_pow_of_pos n (by norm_num))
    have hym : y % 256 ^ n < 256 ^ n := Nat.mod_lt _ (Nat.pos_pow_of_pos n (by norm_num))
    have hxe : 256 ^ n * (x / 256 ^ n) + x % 256 ^ n = x := Nat.div_add_mod x (256 ^ n)
    have hye : 256 ^ n * (y / 256 ^ n) + y % 256 ^ n = y := Nat.div_add_mod y (256 ^ n)
    have key : x < y ↔
        x / 256 ^ n < y / 256 ^ n ∨
          (x / 256 ^ n = y / 256 ^ n ∧ x % 256 ^ n < y % 256 ^ n) := by
      conv_lhs => rw [← hxe, ← hye]
      exact mul_add_lt_mul_add_iff hxm hym
    simp only [beBytes, lexLt]
    split
    · exact iff_of_true rfl (key.mpr (Or.inl (by assumption)))
    · split
      · rw [ih hxm hym, key]
        constructor
        · intro h; exact Or.inr ⟨by assumption, h⟩
        · intro h
          rcases h with h | ⟨_, h⟩
          · omega
          · exact h
      · refine iff_of_false (by simp) ?_
        intro h
        rcases key.mp h with h1 | ⟨h1, _⟩ <;> omega

theorem beBytes_inj {n x y : Nat} (hx : x < 256 ^ n) (hy : y < 256 ^ n) :
    beBytes n x = beBytes n y ↔ x = y := by
  constructor
  · intro h
    rcases Nat.lt_trichotomy x y with h1 | h1 | h1
    · have := (beBytes_lt hx hy).mpr h1
      rw [h, lexLt_irrefl] at this
      exact absurd this (by simp)
    · exact h1
    · have := (beBytes_lt hy hx).mpr h1
      rw [h, lexLt_irrefl] at this
      exact absurd this (by simp)
  · intro h; rw [h]

theorem xor_split {i : Nat} (a c : Nat) {b d : Nat} (hb : b < 2 ^ i) (hd : d < 2 ^ i) :
    (2 ^ i * a + b) ^^^ (2 ^ i * c + d) = 2 ^ i * (a ^^^ c) + (b ^^^ d) := by
  apply Nat.eq_of_testBit_eq
  intro j
  rw [Nat.testBit_xor, Nat.testBit_mul_pow_two_add a hb,
    Nat.testBit_mul_pow_two_add c hd,
    Nat.testBit_mul_pow_two_add (a ^^^ c) (Nat.xor_lt_two_pow hb hd)]
  by_cases h : j < i <;> simp [h]

theorem xor_allones {n : Nat} {a : Nat} (h : a < 2 ^ n) :
    a ^^^ (2 ^ n - 1) = 2 ^ n - 1 - a := by
  induction n generalizing a with
  | zero =>
    simp only [Nat.pow_zero, Nat.lt_one_iff] at h
    subst h; rfl
  | succ n ih =>
    have hp : 0 < 2 ^ n := Nat.two_pow_pos n
    have hsucc : 2 ^ (n + 1) = 2 ^ n * 2 := Nat.pow_succ 2 n
    have hmask : 2 ^ (n + 1) - 1 = 2 ^ n * 1 + (2 ^ n - 1) := by omega
    rcases Nat.lt_or_ge a (2 ^ n) with hc | hc
    · have he : 2 ^ n * 0 + a = a := by omega
      conv_lhs => rw [← he, hmask]
      rw [xor_split 0 1 hc (by omega), ih hc, Nat.zero_xor, Nat.mul_one]
      omega
    · have hr : a - 2 ^ n < 2 ^ n := by omega
      have he : 2 ^ n * 1 + (a - 2 ^ n) = a := by omega
      conv_lhs => rw [← he, hmask]
      rw [xor_split 1 1 hr (by omega), ih hr, Nat.xor_self, Nat.mul_zero]
      omega

theorem xor_top {n : Nat} {a : Nat} (h : a < 2 ^ (n + 1)) :
    a ^^^ 2 ^ n = if a < 2 ^ n then a + 2 ^ n else a - 2 ^ n := by
  have hp : 0 < 2 ^ n := Nat.two_pow_pos n
  have hsucc : 2 ^ (n + 1) = 2 ^ n * 2 := Nat.pow_succ 2 n
  have htop : (2 ^ n : Nat) = 2 ^ n * 1 + 0 := by omega
  rcases Nat.lt_or_ge a (2 ^ n) with hc | hc
  · have he : 2 ^ n * 0 + a = a := by omega
    conv_lhs => rw [htop, ← he]
    rw [xor_split 0 1 hc hp, Nat.zero_xor, Nat.mul_one, Nat.xor_zero, if_pos hc]
    omega
  · have hr : a - 2 ^ n < 2 ^ n := by omega
    have he : 2 ^ n * 1 + (a - 2 ^ n) = a := by omega
    conv_lhs => rw [htop, ← he]
    rw [xor_split 1 1 hr hp, Nat.xor_self, Nat.mul_zero, Nat.xor_zero,
      if_neg (Nat.not_lt.mpr hc)]
    omega

/-- Sign bit of a float64 bit pattern (bit 63). -/
def f64Sign (b : Nat) : Nat := b / 0x8000000000000000

/-- Exponent field of a float64 bit pattern (bits 52 to 62). -/
def f64Exp (b : Nat) : Nat := b / 0x10000000000000 % 2048

/-- Mantissa field of a float64 bit pattern (bits 0 to 51). -/
def f64Man (b : Nat) : Nat := b % 0x10000000000000

/-- True when the float64 bit pattern is an IEEE-754 NaN, as `math.IsNaN`
reports: exponent field all ones and a nonzero mantissa. -/
def f64IsNaN (b : Nat) : Bool := f64Exp b == 2047 && f64Man b != 0

/-- Magnitude of the value of a float64 bit pattern, expressed exactly in
units of 2^(-1074): a subnormal (exponent field 0) has magnitude `man`, a
normal value has magnitude `(2^52 + man) * 2^(exp - 1)`.  The infinity
pattern (exponent 2047, mantissa 0) gets `2^52 * 2^2046`, strictly larger
than the magnitude of every finite value, so the order induced on non-NaN
patterns is exactly the IEEE-754 numeric order with the infinities at the
ends. -/
def f64Mag (b : Nat) : Nat :=
  if f64Exp b = 0 then f64Man b else (2 ^ 52 + f64Man b) * 2 ^ (f64Exp b - 1)

/-- Signed numeric value of a float64 bit pattern in units of 2^(-1074);
both zero patterns map to 0. -/
def f64Val (b : Nat) : Int :=
  if f64Sign b = 1 then -(f64Mag b : Int) else (f64Mag b : Int)

/-- IEEE-754 numeric strict comparison of two non-NaN float64 bit patterns. -/
def f64Lt (a b : Nat) : Bool := decide (f64Val a < f64Val b)

/-- Order-preserving encoding of a float64 value, given by its bit pattern,
from the source `encodeFloat64`: a NaN gets the fixed canonical pattern; a
value with `v < 0` has all 64 bits inverted; otherwise only the sign bit is
flipped.  Output is the 8-byte big-endian byte string. -/
def encodeFloat64 (b : Nat) : List Nat :=
  if f64IsNaN b then beBytes 8 0x7FF8000000000001
  else if f64Val b < 0 then beBytes 8 (b ^^^ 0xFFFFFFFFFFFFFFFF)
  else beBytes 8 (b ^^^ 0x8000000000000000)

/-- Sign bit of a float32 bit pattern (bit 31). -/
def f32Sign (b : Nat) : Nat := b / 0x80000000

/-- Exponent field of a float32 bit pattern (bits 23 to 30). -/
def f32Exp (b : Nat) : Nat := b / 0x800000 % 256

/-- Mantissa field of a float32 bit pattern (bits 0 to 22). -/
def f32Man (b : Nat) : Nat := b % 0x800000

/-- True when the float32 bit pattern is an IEEE-754 NaN; the source widens
with `float64(v)` first, which preserves NaN-ness. -/
def f32IsNaN (b : Nat) : Bool := f32Exp b == 255 && f32Man b != 0

/-- Magnitude of the value of a float32 bit pattern in units of 2^(-149),
with the infinity pattern above all finite magnitudes (compare `f64Mag`). -/
def f32Mag (b : Nat) : Nat :=
  if f32Exp b = 0 then f32Man b else (2 ^ 23 + f32Man b) * 2 ^ (f32Exp b - 1)

/-- Signed numeric value of a float32 bit pattern in units of 2^(-149). -/
def f32Val (b : Nat) : Int :=
  if f32Sign b = 1 then -(f32Mag b : Int) else (f32Mag b : Int)

/-- Order-preserving encoding of a float32 value, given by its bit pattern,
from the source `encodeFloat32`. -/
def encodeFloat32 (b : Nat) : List Nat :=
  if f32IsNaN b then beBytes 4 0x7FC00001
  else if f32Val b < 0 then beBytes 4 (b ^^^ 0xFFFFFFFF)
  else beBytes 4 (b ^^^ 0x80000000)

/-- Go conversion `uint64(v)` of a signed 64-bit value: reduction modulo 2^64. -/
def toUint64 (v : Int) : Nat := (v % 18446744073709551616).toNat

/-- Go conversion `uint32(v)` of a signed 32-bit value: reduction modulo 2^32. -/
def toUint32 (v : Int) : Nat := (v % 4294967296).toNat

/-- Go conversion `uint16(v)` of a signed 16-bit value: reduction modulo 2^16. -/
def toUint16 (v : Int) : Nat := (v % 65536).toNat

/-- `encodeInt64` from the source: flip the sign bit of the two's-complement
pattern and emit 8 big-endian bytes. -/
def encodeInt64 (v : Int) : List Nat := beBytes 8 (toUint64 v ^^^ 0x8000000000000000)

/-- `encodeInt32` from the source: flip the sign bit and emit 4 big-endian bytes. -/
def encodeInt32 (v : Int) : List Nat := beBytes 4 (toUint32 v ^^^ 0x80000000)

/-- `encodeInt16` from the source: flip the sign bit and emit 2 big-endian bytes. -/
def encodeInt16 (v : Int) : List Nat := beBytes 2 (toUint16 v ^^^ 0x8000)

/-- `encodeUint64` from the source: 8 big-endian bytes, no transformation. -/
def encodeUint64 (v : Nat) : List Nat := beBytes 8 v

/-- `encodeUint32` from the source: 4 big-endian bytes, no transformation. -/
def encodeUint32 (v : Nat) : List Nat := beBytes 4 v

/-- `encodeUint16` from the source: 2 big-endian bytes, no transformation. -/
def encodeUint16 (v : Nat) : List Nat := beBytes 2 v

/-- One key part: the dynamic kinds accepted by the source `encodeToBytes`
type switch, plus `pother` standing for every other dynamic type (carrying
its printed type name).  Strings, byte slices and UUIDs are carried as raw
bytes; floats are carried as their IEEE-754 bit patterns; `ptime` carries
the instant's `UnixNano` value and `pduration` the interval's nanoseconds,
matching the reductions the source applies before encoding. -/
inductive KeyPart where
  | str (s : List Nat)
  | uuid (u : List Nat)
  | bytes (b : List Nat)
  | pint (v : Int)
  | pint64 (v : Int)
  | pint32 (v : Int)
  | pint16 (v : Int)
  | puint64 (v : Nat)
  | puint32 (v : Nat)
  | puint16 (v : Nat)
  | puint8 (v : Nat)
  | pfloat64 (bits : Nat)
  | pfloat32 (bits : Nat)
  | pbool (v : Bool)
  | ptime (unixNano : Int)
  | pduration (nanos : Int)
  | pnil
  | pstructEmpty
  | pother (typeName : String)

/-- `encodeToBytes` from the source: the type switch mapping each supported
kind to its byte encoding; the default arm is the unsupported-type error. -/
def encodeToBytes : KeyPart → Except String (List Nat)
  | .str s => .ok s
  | .uuid u => .ok u
  | .bytes b => .ok b
  | .pint v => .ok (encodeInt64 v)
  | .pint64 v => .ok (encodeInt64 v)
  | .pint32 v => .ok (encodeInt32 v)
  | .pint16 v => .ok (encodeInt16 v)
  | .puint64 v => .ok (encodeUint64 v)
  | .puint32 v => .ok (encodeUint32 v)
  | .puint16 v => .ok (encodeUint16 v)
  | .puint8 v => .ok [v]
  | .pfloat64 bits => .ok (encodeFloat64 bits)
  | .pfloat32 bits => .ok (encodeFloat32 bits)
  | .pbool v => .ok (if v then [1] else [0])
  | .ptime unixNano => .ok (encodeInt64 unixNano)
  | .pduration nanos => .ok (encodeInt64 nanos)
  | .pnil => .ok [0x00]
  | .pstructEmpty => .ok [0xFF]
  | .pother typeName => .error ("unsupported key type: " ++ typeName)

/-- Loop of `NewLexKey`: encode each part in order, inserting the separator
byte between consecutive parts (not after the last); on the first failing
part return Go's `(nil, err)` with no partial key, as the source loop does. -/
def newLexKeyLoop : List KeyPart → List Nat → Option (List Nat) × Option String
  | [], acc => (some acc, none)
  | p :: rest, acc =>
    match encodeToBytes p with
    | .error e => (none, some e)
    | .ok enc => newLexKeyLoop rest (acc ++ enc ++ if rest.isEmpty then [] else [Seperator])

/-- `NewLexKey` from the source: an empty part list is an error; the result
pair models Go's `(LexKey, error)` return, `none` standing for Go `nil`. -/
def NewLexKey (parts : List KeyPart) : Option (List Nat) × Option String :=
  if parts.length = 0 then (none, some "empty keys are not allowed")
  else newLexKeyLoop parts []

/-- `PrimaryKey` from src/primary_key.go: a pair of LexKeys, each possibly
Go-`nil` (modelled by `none`). -/
structure PrimaryKey where
  partitionKey : Option (List Nat)
  rowKey : Option (List Nat)

/-- `NewPrimaryKey` from src/primary_key.go: when either key is Go-`nil` it
only logs (`slog.Error`, a side effect outside the value model) and returns
the zero `PrimaryKey{}`; the function's return type carries no error value. -/
def NewPrimaryKey (partitionKey rowKey : Option (List Nat)) : PrimaryKey :=
  if partitionKey = none ∨ rowKey = none then { partitionKey := none, rowKey := none }
  else { partitionKey := partitionKey, rowKey := rowKey }

/-- `PrimaryKey.Encode`: partition bytes, separator byte, row bytes; a
Go-`nil` component contributes no bytes, since `copy` from a nil slice
copies nothing. -/
def PrimaryKey.encode (pk : PrimaryKey) : List Nat :=
  pk.partitionKey.getD [] ++ [Seperator] ++ pk.rowKey.getD []

/-- Helper `ternary` from src/range_key.go. -/
def ternary (cond : Bool) (a b : Nat) : Nat := if cond then a else b

/-- `encodeBoundary` from src/range_key.go.  With a non-empty row key and
`isUpper` the Go code allocates one extra zero byte and then overwrites the
final byte with the end marker, which yields `row ++ [EndMarker]` after the
separator; with an empty row key only a lone separator (lower) or end
marker (upper) follows the optional partition bytes. -/
def encodeBoundary (partitionKey rowKey : List Nat) (isUpper withPartitionKey : Bool) : List Nat :=
  let pfx := if withPartitionKey then partitionKey else []
  if rowKey.length = 0 then pfx ++ [ternary isUpper EndMarker Seperator]
  else if isUpper then pfx ++ Seperator :: (rowKey ++ [EndMarker])
  else pfx ++ Seperator :: rowKey

/-- `RangeKey` from src/range_key.go. -/
structure RangeKey where
  partitionKey : List Nat
  startRowKey : List Nat
  endRowKey : List Nat

/-- `RangeKey.Encode`: the lower bound comes from the start row, the upper
bound from the end row. -/
def RangeKey.encode (rk : RangeKey) (withPartitionKey : Bool) : List Nat × List Nat :=
  (encodeBoundary rk.partitionKey rk.startRowKey false withPartitionKey,
   encodeBoundary rk.partitionKey rk.endRowKey true withPartitionKey)

theorem magFormula_strictMono {E1 M1 E2 M2 : Nat} (hM1 : M1 < 2 ^ 52) (_hM2 : M2 < 2 ^ 52)
    (h : E1 < E2 ∨ (E1 = E2 ∧ M1 < M2)) :
    (if E1 = 0 then M1 else (2 ^ 52 + M1) * 2 ^ (E1 - 1)) <
      (if E2 = 0 then M2 else (2 ^ 52 + M2) * 2 ^ (E2 - 1)) := by
  rcases h with h | ⟨hE, hM⟩
  · have hE2 : ¬ E2 = 0 := by omega
    rw [if_neg hE2]
    by_cases hE1 : E1 = 0
    · rw [if_pos hE1]
      calc M1 < 2 ^ 52 := hM1
        _ = 2 ^ 52 * 1 := (Nat.mul_one _).symm
        _ ≤ 2 ^ 52 * 2 ^ (E2 - 1) := Nat.mul_le_mul_left _ Nat.one_le_two_pow
        _ ≤ (2 ^ 52 + M2) * 2 ^ (E2 - 1) := Nat.mul_le_mul_right _ (Nat.le_add_right _ _)
    · rw [if_neg hE1]
      calc (2 ^ 52 + M1) * 2 ^ (E1 - 1) < 2 ^ 53 * 2 ^ (E1 - 1) :=
            (Nat.mul_lt_mul_right (Nat.two_pow_pos _)).mpr (by omega)
        _ = 2 ^ (53 + (E1 - 1)) := by rw [Nat.pow_add]
        _ ≤ 2 ^ (52 + (E2 - 1)) := Nat.pow_le_pow_right (by norm_num) (by omega)
        _ = 2 ^ 52 * 2 ^ (E2 - 1) := by rw [Nat.pow_add]
        _ ≤ (2 ^ 52 + M2) * 2 ^ (E2 - 1) := Nat.mul_le_mul_right _ (Nat.le_add_right _ _)
  · subst hE
    by_cases hE1 : E1 = 0
    · rw [if_pos hE1, if_pos hE1]
      exact hM
    · rw [if_neg hE1, if_neg hE1]
      exact (Nat.mul_lt_mul_right (Nat.two_pow_pos _)).mpr (by omega)

theorem f64Mag_strictMono {a b : Nat} (ha : a < 2 ^ 63) (hb : b < 2 ^ 63) (hab : a < b) :
    f64Mag a < f64Mag b := by
  have hea : f64Exp a = a / 0x10000000000000 := by
    simp only [f64Exp]
    omega
  have heb : f64Exp b = b / 0x10000000000000 := by
    simp only [f64Exp]
    omega
  have hma : f64Man a = a % 0x10000000000000 := rfl
  have hmb : f64Man b = b % 0x10000000000000 := rfl
  have hkey : a / 0x10000000000000 < b / 0x10000000000000 ∨
      (a / 0x10000000000000 = b / 0x10000000000000 ∧
        a % 0x10000000000000 < b % 0x10000000000000) := by omega
  simp only [f64Mag, hea, heb, hma, hmb]
  exact magFormula_strictMono (by omega) (by omega) hkey

theorem f64Mag_eq_zero {b : Nat} (h : b < 2 ^ 63) : f64Mag b = 0 ↔ b = 0 := by
  have hm0 : f64Mag 0 = 0 := rfl
  constructor
  · intro hz
    by_contra hnz
    have hpos := f64Mag_strictMono (by omega) h (Nat.pos_of_ne_zero hnz)
    rw [hm0, hz] at hpos
    exact absurd hpos (by omega)
  · intro h0
    rw [h0, hm0]

theorem f64Sign_eq_zero {b : Nat} (h : b < 2 ^ 63) : f64Sign b = 0 := by
  simp only [f64Sign]
  omega

theorem f64Sign_eq_one {b : Nat} (h1 : 2 ^ 63 ≤ b) (h2 : b < 2 ^ 64) : f64Sign b = 1 := by
  simp only [f64Sign]
  omega

theorem f64Mag_sub_sign {b : Nat} (h1 : 2 ^ 63 ≤ b) (h2 : b < 2 ^ 64) :
    f64Mag b = f64Mag (b - 2 ^ 63) := by
  have he : f64Exp b = f64Exp (b - 2 ^ 63) := by
    simp only [f64Exp]
    omega
  have hm : f64Man b = f64Man (b - 2 ^ 63) := by
    simp only [f64Man]
    omega
  simp only [f64Mag, he, hm]

theorem f64Val_nonneg_pattern {b : Nat} (h : b < 2 ^ 63) : f64Val b = (f64Mag b : Int) := by
  simp [f64Val, f64Sign_eq_zero h]

theorem f64Val_neg_pattern {b : Nat} (h1 : 2 ^ 63 ≤ b) (h2 : b < 2 ^ 64) :
    f64Val b = -(f64Mag (b - 2 ^ 63) : Int) := by
  simp [f64Val, f64Sign_eq_one h1 h2, f64Mag_sub_sign h1 h2]

theorem encodeFloat64_nonneg {b : Nat} (hb : b < 2 ^ 63) (hn : f64IsNaN b = false) :
    encodeFloat64 b = beBytes 8 (b + 2 ^ 63) := by
  have hval : ¬ f64Val b < 0 := by
    rw [f64Val_nonneg_pattern hb]
    exact not_lt.mpr (Int.natCast_nonneg _)
  have hx := xor_top (show b < 2 ^ (63 + 1) by omega)
  rw [if_pos hb] at hx
  unfold encodeFloat64
  rw [hn, if_neg (by simp), if_neg hval]
  have h8 : b ^^^ 0x8000000000000000 = b + 2 ^ 63 := by
    have h2 : (0x8000000000000000 : Nat) = 2 ^ 63 := by norm_num
    rw [h2, hx]
  rw [h8]

theorem encodeFloat64_neg {b : Nat} (hb1 : 2 ^ 63 < b) (hb2 : b < 2 ^ 64)
    (hn : f64IsNaN b = false) :
    encodeFloat64 b = beBytes 8 (2 ^ 64 - 1 - b) := by
  have hbz : b - 2 ^ 63 ≠ 0 := by omega
  have hmagz : f64Mag (b - 2 ^ 63) ≠ 0 :=
    fun hc => hbz ((f64Mag_eq_zero (by omega)).mp hc)
  have hval : f64Val b < 0 := by
    rw [f64Val_neg_pattern (by omega) hb2]
    have hpos : (0 : Int) < (f64Mag (b - 2 ^ 63) : Int) := by
      exact_mod_cast Nat.pos_of_ne_zero hmagz
    omega
  unfold encodeFloat64
  rw [hn, if_neg (by simp), if_pos hval]
  have h8 : b ^^^ 0xFFFFFFFFFFFFFFFF = 2 ^ 64 - 1 - b := by
    have h2 : (0xFFFFFFFFFFFFFFFF : Nat) = 2 ^ 64 - 1 := by norm_num
    rw [h2, xor_allones hb2]
  rw [h8]

theorem f64Mag_lt_iff {a b : Nat} (ha : a < 2 ^ 63) (hb : b < 2 ^ 63) :
    f64Mag a < f64Mag b ↔ a < b := by
  constructor
  · intro h
    rcases Nat.lt_trichotomy a b with h1 | h1 | h1
    · exact h1
    · subst h1
      exact absurd h (by omega)
    · exact absurd (f64Mag_strictMono hb ha h1) (by omega)
  · exact f64Mag_strictMono ha hb

theorem pow256_8 : (256 : Nat) ^ 8 = 2 ^ 64 := by norm_num

/-- C1: for non-NaN float64 bit patterns other than negative zero, IEEE-754
numeric order agrees with byte-wise lexicographic order of the encodings.
The claim as frozen (all non-NaN values, including negative zero) is refuted
by `C1_counterexample`: the source tests `v < 0`, which is false for the
negative-zero pattern 0x8000000000000000, so negative zero is encoded as
eight 0x00 bytes and sorts below every other value, including negative
infinity. -/
theorem C1_float64_order (a b : Nat) (ha : a < 2 ^ 64) (hb : b < 2 ^ 64)
    (hna : f64IsNaN a = false) (hnb : f64IsNaN b = false)
    (hza : a ≠ 0x8000000000000000) (hzb : b ≠ 0x8000000000000000) :
    f64Lt a b = true ↔ lexLt (encodeFloat64 a) (encodeFloat64 b) = true := by
  have hz63 : (0x8000000000000000 : Nat) = 2 ^ 63 := by norm_num
  rw [hz63] at hza hzb
  have hpow := pow256_8
  have hlt : f64Lt a b = true ↔ f64Val a < f64Val b := by
    simp [f64Lt]
  rw [hlt]
  rcases Nat.lt_or_ge a (2 ^ 63) with hca | hca <;>
    rcases Nat.lt_or_ge b (2 ^ 63) with hcb | hcb
  · rw [encodeFloat64_nonneg hca hna, encodeFloat64_nonneg hcb hnb,
      beBytes_lt (by omega) (by omega),
      f64Val_nonneg_pattern hca, f64Val_nonneg_pattern hcb]
    constructor
    · intro h
      have hh : f64Mag a < f64Mag b := by exact_mod_cast h
      have := (f64Mag_lt_iff hca hcb).mp hh
      omega
    · intro h
      have hh : f64Mag a < f64Mag b := (f64Mag_lt_iff hca hcb).mpr (by omega)
      exact_mod_cast hh
  · have hbb : 2 ^ 63 < b := by omega
    rw [encodeFloat64_nonneg hca hna, encodeFloat64_neg hbb hb hnb,
      beBytes_lt (by omega) (by omega),
      f64Val_nonneg_pattern hca, f64Val_neg_pattern (by omega) hb]
    have hmagz : f64Mag (b - 2 ^ 63) ≠ 0 :=
      fun hc => (by omega : b - 2 ^ 63 ≠ 0) ((f64Mag_eq_zero (by omega)).mp hc)
    have hpos : (0 : Int) < (f64Mag (b - 2 ^ 63) : Int) := by
      exact_mod_cast Nat.pos_of_ne_zero hmagz
    have hnn : (0 : Int) ≤ (f64Mag a : Int) := Int.natCast_nonneg _
    exact iff_of_false (by omega) (by omega)
  · have haa : 2 ^ 63 < a := by omega
    rw [encodeFloat64_neg haa ha hna, encodeFloat64_nonneg hcb hnb,
      beBytes_lt (by omega) (by omega),
      f64Val_neg_pattern (by omega) ha, f64Val_nonneg_pattern hcb]
    have hmagz : f64Mag (a - 2 ^ 63) ≠ 0 :=
      fun hc => (by omega : a - 2 ^ 63 ≠ 0) ((f64Mag_eq_zero (by omega)).mp hc)
    have hpos : (0 : Int) < (f64Mag (a - 2 ^ 63) : Int) := by
      exact_mod_cast Nat.pos_of_ne_zero hmagz
    have hnn : (0 : Int) ≤ (f64Mag b : Int) := Int.natCast_nonneg _
    exact iff_of_true (by omega) (by omega)
  · have haa : 2 ^ 63 < a := by omega
    have hbb : 2 ^ 63 < b := by omega
    rw [encodeFloat64_neg haa ha hna, encodeFloat64_neg hbb hb hnb,
      beBytes_lt (by omega) (by omega),
      f64Val_neg_pattern (by omega) ha, f64Val_neg_pattern (by omega) hb]
    have hiff := f64Mag_lt_iff (show b - 2 ^ 63 < 2 ^ 63 by omega)
      (show a - 2 ^ 63 < 2 ^ 63 by omega)
    constructor
    · intro h
      have hh : f64Mag (b - 2 ^ 63) < f64Mag (a - 2 ^ 63) := by exact_mod_cast (by omega :
        (f64Mag (b - 2 ^ 63) : Int) < (f64Mag (a - 2 ^ 63) : Int))
      have := hiff.mp hh
      omega
    · intro h
      have hh : f64Mag (b - 2 ^ 63) < f64Mag (a - 2 ^ 63) := hiff.mpr (by omega)
      have hh2 : (f64Mag (b - 2 ^ 63) : Int) < (f64Mag (a - 2 ^ 63) : Int) := by
        exact_mod_cast hh
      omega

/-- C1 witness: the amended order equivalence applied at the bit patterns of
1.0 and 2.0, with every hypothesis discharged by evaluation. -/
theorem C1_float64_order_witness :
    f64IsNaN 0x3FF0000000000000 = false ∧ f64IsNaN 0x4000000000000000 = false ∧
      (f64Lt 0x3FF0000000000000 0x4000000000000000 = true ↔
        lexLt (encodeFloat64 0x3FF0000000000000) (encodeFloat64 0x4000000000000000) = true) :=
  ⟨by decide, by decide,
    C1_float64_order 0x3FF0000000000000 0x4000000000000000 (by decide) (by decide)
      (by decide) (by decide) (by decide) (by decide)⟩

/-- C1 counterexample: the negative subnormal with pattern
0x8000000000000001 (value minus 2^(-1074)) is numerically below negative
zero (pattern 0x8000000000000000), yet its encoding does not sort below
the encoding of negative zero: the source tests `v < 0`, which is false
for negative zero, so negative zero is encoded as eight 0x00 bytes and
sorts below every other non-NaN value, refuting the claimed order
preservation across the zero boundary cases. -/
theorem C1_counterexample :
    f64IsNaN 0x8000000000000001 = false ∧ f64IsNaN 0x8000000000000000 = false ∧
      f64Lt 0x8000000000000001 0x8000000000000000 = true ∧
      lexLt (encodeFloat64 0x8000000000000001) (encodeFloat64 0x8000000000000000) = false ∧
      encodeFloat64 0x8000000000000000 = [0, 0, 0, 0, 0, 0, 0, 0] := by
  refine ⟨by decide, by decide, by decide, by decide, by decide⟩

theorem f32Sign_eq_zero {b : Nat} (h : b < 2 ^ 31) : f32Sign b = 0 := by
  simp only [f32Sign]
  omega

theorem f32Val_nonneg_pattern {b : Nat} (h : b < 2 ^ 31) : f32Val b = (f32Mag b : Int) := by
  simp [f32Val, f32Sign_eq_zero h]

theorem encodeFloat32_nonneg {b : Nat} (hb : b < 2 ^ 31) (hn : f32IsNaN b = false) :
    encodeFloat32 b = beBytes 4 (b + 2 ^ 31) := by
  have hval : ¬ f32Val b < 0 := by
    rw [f32Val_nonneg_pattern hb]
    exact not_lt.mpr (Int.natCast_nonneg _)
  have hx := xor_top (show b < 2 ^ (31 + 1) by omega)
  rw [if_pos hb] at hx
  unfold encodeFloat32
  rw [hn, if_neg (by simp), if_neg hval]
  have h8 : b ^^^ 0x80000000 = b + 2 ^ 31 := by
    have h2 : (0x80000000 : Nat) = 2 ^ 31 := by norm_num
    rw [h2, hx]
  rw [h8]

/-- C2 addendum for single precision: the canonical float32 NaN encoding also
sorts below the encoding of every nonnegative non-NaN float32 value. -/
theorem encodeFloat32_nan_below_nonneg {b : Nat} (hb : b < 2 ^ 31)
    (hn : f32IsNaN b = false) :
    lexLt (encodeFloat32 0x7FC00001) (encodeFloat32 b) = true := by
  have hpow : (256 : Nat) ^ 4 = 2 ^ 32 := by norm_num
  have hcan : encodeFloat32 0x7FC00001 = beBytes 4 0x7FC00001 := rfl
  rw [hcan, encodeFloat32_nonneg hb hn, beBytes_lt (by omega) (by omega)]
  omega

/-- C2 amended: every NaN float64 pattern encodes to the fixed bytes of
0x7FF8000000000001 and every NaN float32 pattern to the fixed bytes of
0x7FC00001, but the canonical NaN encoding does not sort above all non-NaN
values: since the NaN branch writes the pattern without any sign-bit
transformation, it sorts below the encoding of every nonnegative non-NaN
float64 value (which always has its top bit set). -/
theorem C2_nan_canonical :
    (∀ b : Nat, f64IsNaN b = true → encodeFloat64 b = beBytes 8 0x7FF8000000000001) ∧
    (∀ b : Nat, f32IsNaN b = true → encodeFloat32 b = beBytes 4 0x7FC00001) ∧
    (∀ b : Nat, b < 2 ^ 63 → f64IsNaN b = false →
      lexLt (encodeFloat64 0x7FF8000000000001) (encodeFloat64 b) = true) ∧
    (∀ b : Nat, b < 2 ^ 31 → f32IsNaN b = false →
      lexLt (encodeFloat32 0x7FC00001) (encodeFloat32 b) = true) := by
  refine ⟨?_, ?_, ?_, ?_⟩
  · intro b hnan
    unfold encodeFloat64
    rw [hnan, if_pos rfl]
  · intro b hnan
    unfold encodeFloat32
    rw [hnan, if_pos rfl]
  · intro b hb hn
    have hpow := pow256_8
    have hcan : encodeFloat64 0x7FF8000000000001 = beBytes 8 0x7FF8000000000001 := rfl
    rw [hcan, encodeFloat64_nonneg hb hn, beBytes_lt (by omega) (by omega)]
    omega
  · intro b hb hn
    exact encodeFloat32_nan_below_nonneg hb hn

/-- C2 witness: the canonical patterns and the below-nonnegative ordering at
concrete inputs, each hypothesis discharged by evaluation. -/
theorem C2_nan_canonical_witness :
    f64IsNaN 0x7FF8000000000000 = true ∧
      encodeFloat64 0x7FF8000000000000 = beBytes 8 0x7FF8000000000001 ∧
      f32IsNaN 0x7FC00000 = true ∧
      encodeFloat32 0x7FC00000 = beBytes 4 0x7FC00001 ∧
      lexLt (encodeFloat64 0x7FF8000000000001) (encodeFloat64 0) = true ∧
      lexLt (encodeFloat32 0x7FC00001) (encodeFloat32 0) = true :=
  ⟨by decide, C2_nan_canonical.1 0x7FF8000000000000 (by decide), by decide,
    C2_nan_canonical.2.1 0x7FC00000 (by decide),
    C2_nan_canonical.2.2.1 0 (by decide) (by decide),
    C2_nan_canonical.2.2.2 0 (by decide) (by decide)⟩

/-- C2 counterexample: the canonical NaN encoding is not byte-wise greater
than the encoding of the non-NaN value +0.0 (bit pattern 0): it is strictly
less, because the NaN pattern is written with its sign bit clear while every
nonnegative value is encoded with its sign bit set; the same failure holds
for single precision. -/
theorem C2_counterexample :
    f64IsNaN 0x7FF8000000000001 = true ∧ f64IsNaN 0 = false ∧
      lexLt (encodeFloat64 0x7FF8000000000001) (encodeFloat64 0) = true ∧
      lexLt (encodeFloat64 0) (encodeFloat64 0x7FF8000000000001) = false ∧
      f32IsNaN 0x7FC00001 = true ∧ f32IsNaN 0 = false ∧
      lexLt (encodeFloat32 0) (encodeFloat32 0x7FC00001) = false := by
  refine ⟨by decide, by decide, by decide, by decide, by decide, by decide, by decide⟩

theorem beBytes_append {m n : Nat} {x : Nat} (hx : x < 256 ^ (m + n)) :
    beBytes (m + n) x = beBytes m (x / 256 ^ n) ++ beBytes n (x % 256 ^ n) := by
  induction m generalizing x with
  | zero =>
    have hmod : x % 256 ^ n = x := Nat.mod_eq_of_lt (by simpa using hx)
    simp [beBytes, hmod]
  | succ m ih =>
    have hsucc : m + 1 + n = (m + n) + 1 := by omega
    rw [hsucc] at hx ⊢
    have hhead : x / 256 ^ (m + n) = x / 256 ^ n / 256 ^ m := by
      rw [Nat.div_div_eq_div_mul, ← Nat.pow_add]
      rw [Nat.add_comm n m]
    have hmul : (256 : Nat) ^ (m + n) = 256 ^ n * 256 ^ m := by
      rw [← Nat.pow_add, Nat.add_comm n m]
    have htail : beBytes (m + n) (x % 256 ^ (m + n)) =
        beBytes m (x / 256 ^ n % 256 ^ m) ++ beBytes n (x % 256 ^ n) := by
      rw [ih (Nat.mod_lt _ (Nat.pos_pow_of_pos _ (by norm_num)))]
      have h1 : x % 256 ^ (m + n) / 256 ^ n = x / 256 ^ n % 256 ^ m := by
        rw [hmul, Nat.mod_mul_right_div_self]
      have h2 : x % 256 ^ (m + n) % 256 ^ n = x % 256 ^ n :=
        Nat.mod_mod_of_dvd x (Nat.pow_dvd_pow 256 (by omega))
      rw [h1, h2]
    simp only [beBytes, List.cons_append]
    rw [hhead, htail]

theorem lexLt_append_same_length {u v : List Nat} (w : List Nat) (h : u.length = v.length) :
    lexLt u (v ++ w) = true ↔ (lexLt u v = true ∨ (u = v ∧ w ≠ [])) := by
  induction u generalizing v with
  | nil =>
    cases v with
    | nil => cases w <;> simp [lexLt]
    | cons b bs => simp at h
  | cons a as ih =>
    cases v with
    | nil => simp at h
    | cons b bs =>
      have h2 : as.length = bs.length := by simpa using h
      simp only [List.cons_append, lexLt]
      by_cases hab : a < b
      · simp [hab]
      · by_cases heq : a = b
        · subst heq
          rw [if_neg hab, if_pos rfl, if_neg hab, if_pos rfl]
          show lexLt as (bs ++ w) = true ↔ lexLt as bs = true ∨ a :: as = a :: bs ∧ w ≠ []
          rw [ih h2]
          simp [List.cons.injEq]
        · simp [hab, heq]

theorem pow256_4 : (256 : Nat) ^ 4 = 2 ^ 32 := by norm_num

theorem pow256_2 : (256 : Nat) ^ 2 = 2 ^ 16 := by norm_num

theorem encodeInt64_key {v : Int} (h1 : -(2 ^ 63) ≤ v) (h2 : v < 2 ^ 63) :
    toUint64 v ^^^ 0x8000000000000000 = (v + 2 ^ 63).toNat := by
  have h8 : (0x8000000000000000 : Nat) = 2 ^ 63 := by norm_num
  have hlt : toUint64 v < 2 ^ (63 + 1) := by
    unfold toUint64
    omega
  have hx := xor_top hlt
  rw [h8, hx]
  unfold toUint64 at *
  split <;> omega

theorem encodeInt32_key {v : Int} (h1 : -(2 ^ 31) ≤ v) (h2 : v < 2 ^ 31) :
    toUint32 v ^^^ 0x80000000 = (v + 2 ^ 31).toNat := by
  have h8 : (0x80000000 : Nat) = 2 ^ 31 := by norm_num
  have hlt : toUint32 v < 2 ^ (31 + 1) := by
    unfold toUint32
    omega
  have hx := xor_top hlt
  rw [h8, hx]
  unfold toUint32 at *
  split <;> omega

theorem encodeInt16_key {v : Int} (h1 : -(2 ^ 15) ≤ v) (h2 : v < 2 ^ 15) :
    toUint16 v ^^^ 0x8000 = (v + 2 ^ 15).toNat := by
  have h8 : (0x8000 : Nat) = 2 ^ 15 := by norm_num
  have hlt : toUint16 v < 2 ^ (15 + 1) := by
    unfold toUint16
    omega
  have hx := xor_top hlt
  rw [h8, hx]
  unfold toUint16 at *
  split <;> omega

theorem encodeInt64_lt_iff {a b : Int} (ha1 : -(2 ^ 63) ≤ a) (ha2 : a < 2 ^ 63)
    (hb1 : -(2 ^ 63) ≤ b) (hb2 : b < 2 ^ 63) :
    lexLt (encodeInt64 a) (encodeInt64 b) = true ↔ a < b := by
  have hpow := pow256_8
  unfold encodeInt64
  rw [encodeInt64_key ha1 ha2, encodeInt64_key hb1 hb2,
    beBytes_lt (by omega) (by omega)]
  omega

theorem encodeInt32_lt_iff {a b : Int} (ha1 : -(2 ^ 31) ≤ a) (ha2 : a < 2 ^ 31)
    (hb1 : -(2 ^ 31) ≤ b) (hb2 : b < 2 ^ 31) :
    lexLt (encodeInt32 a) (encodeInt32 b) = true ↔ a < b := by
  have hpow := pow256_4
  unfold encodeInt32
  rw [encodeInt32_key ha1 ha2, encodeInt32_key hb1 hb2,
    beBytes_lt (by omega) (by omega)]
  omega

theorem encodeInt16_lt_iff {a b : Int} (ha1 : -(2 ^ 15) ≤ a) (ha2 : a < 2 ^ 15)
    (hb1 : -(2 ^ 15) ≤ b) (hb2 : b < 2 ^ 15) :
    lexLt (encodeInt16 a) (encodeInt16 b) = true ↔ a < b := by
  have hpow := pow256_2
  unfold encodeInt16
  rw [encodeInt16_key ha1 ha2, encodeInt16_key hb1 hb2,
    beBytes_lt (by omega) (by omega)]
  omega

/-- C7: for each signed width (16, 32, 64 bits) independently, the encoding
that reinterprets the two's-complement bits as unsigned, flips the sign bit
and emits big-endian bytes is strictly order-preserving under byte-wise
lexicographic comparison. -/
theorem C7_signed_order :
    (∀ a b : Int, -(2 ^ 15) ≤ a → a < 2 ^ 15 → -(2 ^ 15) ≤ b → b < 2 ^ 15 →
      (a < b ↔ lexLt (encodeInt16 a) (encodeInt16 b) = true)) ∧
    (∀ a b : Int, -(2 ^ 31) ≤ a → a < 2 ^ 31 → -(2 ^ 31) ≤ b → b < 2 ^ 31 →
      (a < b ↔ lexLt (encodeInt32 a) (encodeInt32 b) = true)) ∧
    (∀ a b : Int, -(2 ^ 63) ≤ a → a < 2 ^ 63 → -(2 ^ 63) ≤ b → b < 2 ^ 63 →
      (a < b ↔ lexLt (encodeInt64 a) (encodeInt64 b) = true)) := by
  refine ⟨?_, ?_, ?_⟩
  · intro a b ha1 ha2 hb1 hb2
    exact (encodeInt16_lt_iff ha1 ha2 hb1 hb2).symm
  · intro a b ha1 ha2 hb1 hb2
    exact (encodeInt32_lt_iff ha1 ha2 hb1 hb2).symm
  · intro a b ha1 ha2 hb1 hb2
    exact (encodeInt64_lt_iff ha1 ha2 hb1 hb2).symm

/-- C7 witness: the order equivalence applied at -1 and 1 for each width,
hypotheses discharged by evaluation. -/
theorem C7_signed_order_witness :
    ((-1 : Int) < 1 ↔ lexLt (encodeInt16 (-1)) (encodeInt16 1) = true) ∧
    ((-1 : Int) < 1 ↔ lexLt (encodeInt32 (-1)) (encodeInt32 1) = true) ∧
    ((-1 : Int) < 1 ↔ lexLt (encodeInt64 (-1)) (encodeInt64 1) = true) :=
  ⟨C7_signed_order.1 (-1) 1 (by decide) (by decide) (by decide) (by decide),
    C7_signed_order.2.1 (-1) 1 (by decide) (by decide) (by decide) (by decide),
    C7_signed_order.2.2 (-1) 1 (by decide) (by decide) (by decide) (by decide)⟩

/-- C3 amended: comparing the 4-byte `encodeInt32` output with the 8-byte
`encodeInt64` output byte-wise does not track the numeric order of the two
values (refuted by `C3_counterexample` already at the narrow-positive and
wide-positive pair 1 and 2); what actually holds is that the 4-byte encoding
sorts below the 8-byte encoding exactly when the biased 32-bit value
`a + 2^31` is at most the top four bytes `(b + 2^63) / 2^32` of the biased
64-bit value.  Numeric cross-width order is preserved only when the 32-bit
value is first promoted and encoded with the 64-bit encoder, as the source
does for Go's plain `int`. -/
theorem C3_cross_width (a b : Int) (ha1 : -(2 ^ 31) ≤ a) (ha2 : a < 2 ^ 31)
    (hb1 : -(2 ^ 63) ≤ b) (hb2 : b < 2 ^ 63) :
    lexLt (encodeInt32 a) (encodeInt64 b) = true ↔
      (a + 2 ^ 31).toNat ≤ (b + 2 ^ 63).toNat / 2 ^ 32 := by
  have h4 := pow256_4
  have h8 := pow256_8
  unfold encodeInt32 encodeInt64
  rw [encodeInt32_key ha1 ha2, encodeInt64_key hb1 hb2]
  have hua : (a + 2 ^ 31).toNat < 256 ^ 4 := by omega
  have hub : (b + 2 ^ 63).toNat < 256 ^ (4 + 4) := by
    have : (256 : Nat) ^ (4 + 4) = 256 ^ 8 := by norm_num
    omega
  have h84 : beBytes 8 (b + 2 ^ 63).toNat = beBytes (4 + 4) (b + 2 ^ 63).toNat := rfl
  rw [h84, beBytes_append hub]
  rw [lexLt_append_same_length _ (by rw [beBytes_length, beBytes_length])]
  have hhi : (b + 2 ^ 63).toNat / 256 ^ 4 < 256 ^ 4 := by
    have h2 : (256 : Nat) ^ 4 * 256 ^ 4 = 256 ^ 8 := by norm_num
    refine Nat.div_lt_of_lt_mul ?_
    omega
  rw [beBytes_lt hua hhi, beBytes_inj hua hhi]
  have hne : beBytes 4 ((b + 2 ^ 63).toNat % 256 ^ 4) ≠ [] := by
    intro hc
    have hl := beBytes_length 4 ((b + 2 ^ 63).toNat % 256 ^ 4)
    rw [hc] at hl
    simp at hl
  rw [h4]
  constructor
  · intro hor
    rcases hor with h | ⟨h, _⟩ <;> omega
  · intro h
    rcases Nat.lt_or_ge ((a + 2 ^ 31).toNat) ((b + 2 ^ 63).toNat / 2 ^ 32) with h1 | h1
    · exact Or.inl h1
    · exact Or.inr ⟨by omega, hne⟩

/-- C3 witness: the cross-width byte-order characterization applied at the
narrow value 1 and wide value 2, hypotheses discharged by evaluation. -/
theorem C3_cross_width_witness :
    lexLt (encodeInt32 1) (encodeInt64 2) = true ↔
      ((1 : Int) + 2 ^ 31).toNat ≤ ((2 : Int) + 2 ^ 63).toNat / 2 ^ 32 :=
  C3_cross_width 1 2 (by decide) (by decide) (by decide) (by decide)

/-- C3 counterexample: for the narrow-positive and wide-positive pair
a = 1 (int32) and b = 2 (int64), a is numerically below b but the 4-byte
encoding of a does not sort below the 8-byte encoding of b: the fourth byte
of `encodeInt32 1` is 0x01 while the fourth byte of `encodeInt64 2` is
0x00, so byte-wise comparison of the two encodings does not match numeric
order. -/
theorem C3_counterexample :
    (1 : Int) < 2 ∧ lexLt (encodeInt32 1) (encodeInt64 2) = false := by
  refine ⟨by decide, by decide⟩

/-- C6 amended: with a non-empty start row S and end row E and the partition
included, a stored key of the form P ++ 0x00 ++ R lies in the half-open scan
interval produced by `RangeKey.Encode` if and only if S is byte-wise at most
R and R is byte-wise below E ++ 0xFF.  The frozen claim, with the right-hand
side "R lies in the closed interval [S, E]", is refuted by
`C6_counterexample`: any proper extension of E whose next byte is below 0xFF
(for example R = E ++ 0x00) also falls inside the scan interval although it
is byte-wise greater than E. -/
theorem C6_range_window (P S E R : List Nat) (hS : S ≠ []) (hE : E ≠ []) :
    (lexLe (RangeKey.encode ⟨P, S, E⟩ true).1 (P ++ Seperator :: R) = true ∧
      lexLt (P ++ Seperator :: R) (RangeKey.encode ⟨P, S, E⟩ true).2 = true) ↔
    (lexLe S R = true ∧ lexLt R (E ++ [EndMarker]) = true) := by
  have hSl : S.length ≠ 0 := fun hc => hS (List.length_eq_zero.mp hc)
  have hEl : E.length ≠ 0 := fun hc => hE (List.length_eq_zero.mp hc)
  have hlow : (RangeKey.encode ⟨P, S, E⟩ true).1 = P ++ Seperator :: S := by
    simp [RangeKey.encode, encodeBoundary, hSl]
  have hup : (RangeKey.encode ⟨P, S, E⟩ true).2 = P ++ Seperator :: (E ++ [EndMarker]) := by
    simp [RangeKey.encode, encodeBoundary, hEl]
  rw [hlow, hup,
    show P ++ Seperator :: S = (P ++ [Seperator]) ++ S by simp,
    show P ++ Seperator :: R = (P ++ [Seperator]) ++ R by simp,
    show P ++ Seperator :: (E ++ [EndMarker]) = (P ++ [Seperator]) ++ (E ++ [EndMarker]) by simp,
    lexLe_append_left, lexLt_append_left]

/-- C6 witness: the amended window equivalence applied at concrete partition,
start, end and row bytes, hypotheses discharged by evaluation. -/
theorem C6_range_window_witness :
    ([0x01] : List Nat) ≠ [] ∧ ([0x02] : List Nat) ≠ [] ∧
      ((lexLe (RangeKey.encode ⟨[0x70], [0x01], [0x02]⟩ true).1
          ([0x70] ++ Seperator :: [0x01]) = true ∧
        lexLt ([0x70] ++ Seperator :: [0x01])
          (RangeKey.encode ⟨[0x70], [0x01], [0x02]⟩ true).2 = true) ↔
      (lexLe [0x01] [0x01] = true ∧ lexLt [0x01] ([0x02] ++ [EndMarker]) = true)) :=
  ⟨by decide, by decide,
    C6_range_window [0x70] [0x01] [0x02] [0x01] (by decide) (by decide)⟩

/-- C6 counterexample: with partition 0x70, start row 0x01, end row 0x02 and
the partition included, the stored key for the row R = 0x02 0x00 lies inside
the half-open interval returned by `RangeKey.Encode`, yet R is byte-wise
greater than the end row 0x02, refuting "in the interval iff the row lies in
[start, end]". -/
theorem C6_counterexample :
    (lexLe (RangeKey.encode ⟨[0x70], [0x01], [0x02]⟩ true).1
        ([0x70] ++ Seperator :: [0x02, 0x00]) = true ∧
      lexLt ([0x70] ++ Seperator :: [0x02, 0x00])
        (RangeKey.encode ⟨[0x70], [0x01], [0x02]⟩ true).2 = true) ∧
      lexLe [0x02, 0x00] [0x02] = false := by
  refine ⟨⟨by decide, by decide⟩, by decide⟩

/-- C8: the two literal boundary vectors from the spec: with partition
"part", rows "start" and "end", lower is "part" 0x00 "start" and upper is
"part" 0x00 "end" 0xFF; with partition "partition" and both rows absent,
lower is "partition" 0x00 and upper is "partition" 0xFF with no separator
before the end marker. -/
theorem C8_boundary_vectors :
    RangeKey.encode ⟨[0x70, 0x61, 0x72, 0x74], [0x73, 0x74, 0x61, 0x72, 0x74],
        [0x65, 0x6E, 0x64]⟩ true =
      ([0x70, 0x61, 0x72, 0x74, 0x00, 0x73, 0x74, 0x61, 0x72, 0x74],
        [0x70, 0x61, 0x72, 0x74, 0x00, 0x65, 0x6E, 0x64, 0xFF]) ∧
    RangeKey.encode ⟨[0x70, 0x61, 0x72, 0x74, 0x69, 0x74, 0x69, 0x6F, 0x6E], [], []⟩ true =
      ([0x70, 0x61, 0x72, 0x74, 0x69, 0x74, 0x69, 0x6F, 0x6E, 0x00],
        [0x70, 0x61, 0x72, 0x74, 0x69, 0x74, 0x69, 0x6F, 0x6E, 0xFF]) := by
  refine ⟨by decide, by decide⟩

/-- C4 amended: every dynamic kind outside the supported set fails with the
unsupported-type error naming the kind, and `NewLexKey` containing such a
part returns nil and an error, EXCEPT that the source switch additionally
accepts the empty struct `struct{}{}` and silently encodes it as the single
byte 0xFF, so the claim "no other kind gets a fallback encoding" is refuted
by `C4_counterexample`. -/
theorem C4_unsupported :
    (∀ t : String, encodeToBytes (KeyPart.pother t) =
      Except.error ("unsupported key type: " ++ t)) ∧
    (∀ t : String, (NewLexKey [KeyPart.pother t]).1 = none ∧
      ((NewLexKey [KeyPart.pother t]).2).isSome = true) ∧
    encodeToBytes KeyPart.pstructEmpty = Except.ok [0xFF] := by
  exact ⟨fun t => rfl, fun t => ⟨rfl, rfl⟩, rfl⟩

/-- C4 counterexample: the empty-struct kind is outside the supported set
listed in the data model, yet `encodeToBytes` does not fail on it: it
returns the fallback encoding 0xFF, and `NewLexKey` on that single part
succeeds with key 0xFF and no error. -/
theorem C4_counterexample :
    encodeToBytes KeyPart.pstructEmpty = Except.ok [0xFF] ∧
      (NewLexKey [KeyPart.pstructEmpty]).1 = some [0xFF] ∧
      (NewLexKey [KeyPart.pstructEmpty]).2 = none := by
  exact ⟨rfl, rfl, rfl⟩

/-- C5: the claim (and the function's own doc comment and the package's
test file) say `NewPrimaryKey` returns an error to the caller when either
key is nil; in src/primary_key.go the function's return type has no error
component at all: with a nil partition key it merely logs and returns the
zero `PrimaryKey{}`.  The concatenation half of the claim does hold:
`Encode` yields partition, separator byte, then row. -/
theorem C5_primary_key_behavior :
    NewPrimaryKey none (some [0x72, 0x6F, 0x77]) =
      { partitionKey := none, rowKey := none } ∧
    (∀ p r : List Nat, (NewPrimaryKey (some p) (some r)).encode =
      p ++ [Seperator] ++ r) := by
  exact ⟨rfl, fun p r => rfl⟩

theorem newLexKeyLoop_error (ps : List KeyPart) (acc : List Nat) :
    ((newLexKeyLoop ps acc).2).isSome = true → (newLexKeyLoop ps acc).1 = none := by
  induction ps generalizing acc with
  | nil =>
    intro h
    simp [newLexKeyLoop] at h
  | cons p rest ih =>
    cases henc : encodeToBytes p with
    | error e =>
      intro _
      simp [newLexKeyLoop, henc]
    | ok enc =>
      intro h
      have h2 : newLexKeyLoop (p :: rest) acc =
          newLexKeyLoop rest (acc ++ enc ++ if rest.isEmpty then [] else [Seperator]) := by
        simp [newLexKeyLoop, henc]
      rw [h2] at h ⊢
      exact ih _ h

/-- C9: `NewLexKey` with zero parts fails with the empty-input error rather
than returning the empty key, and whenever `NewLexKey` reports an error the
key component of its result is nil: no partial concatenation is ever
returned alongside an error. -/
theorem C9_empty_and_no_partial :
    (NewLexKey []).1 = none ∧ ((NewLexKey []).2).isSome = true ∧
      (∀ parts : List KeyPart, ((NewLexKey parts).2).isSome = true →
        (NewLexKey parts).1 = none) := by
  refine ⟨rfl, rfl, ?_⟩
  intro parts h
  by_cases hp : parts.length = 0
  · simp [NewLexKey, hp]
  · simp only [NewLexKey, if_neg hp] at h ⊢
    exact newLexKeyLoop_error parts [] h

/-- C9 witness: a one-part list with an unsupported kind makes `NewLexKey`
report an error, and the error-implies-nil-key clause applied there gives a
nil key result. -/
theorem C9_empty_and_no_partial_witness :
    ((NewLexKey [KeyPart.pother "chan int"]).2).isSome = true ∧
      (NewLexKey [KeyPart.pother "chan int"]).1 = none :=
  ⟨rfl, C9_empty_and_no_partial.2.2 [KeyPart.pother "chan int"] rfl⟩

/-- C10: the scalar encoding is not injective across kinds: `NewLexKey` on
the single nil part and on the single part `false` both succeed with the
identical one-byte key 0x00, which is also the separator byte value. -/
theorem C10_nil_false_collision :
    (NewLexKey [KeyPart.pnil]).1 = some [0x00] ∧ (NewLexKey [KeyPart.pnil]).2 = none ∧
      (NewLexKey [KeyPart.pbool false]).1 = some [0x00] ∧
      (NewLexKey [KeyPart.pbool false]).2 = none ∧
      (NewLexKey [KeyPart.pnil]).1 = (NewLexKey [KeyPart.pbool false]).1 ∧
      [0x00] = [Seperator] := by
  exact ⟨rfl, rfl, rfl, rfl, rfl, rfl⟩
